import Mathlib

/-!
Verification of the `immut` persistent hash map (hash array mapped trie).

This file is a shallow embedding of the generic HAMT implementation
(`trie.go` of package `immut`): the trie `node` with its persistent
`insert`/`get`/`delete`, the mutating `insertMut`/`deleteMut` used by the
`Builder`, the public `Map` wrapper with its cached length, the derived set
algebra (`Union`, `Intersection`, `Difference`, `SymmetricDifference`,
`Filter`, `Equal`, `Merge`), and the JSON-object deserialization control
flow.

Modelling conventions:
* Go machine integers are `Nat` with explicit `% 2 ^ 64` where wrap-around
  matters (the shift-amount computation in `index`); `Map.len` (a Go `int`)
  is `Int`.
* The key hash `maphash.Comparable(seed, k)` is an opaque parameter
  `hash : K → Nat`; theorems hold for every hash function unless they
  explicitly assume distinctness of the involved hashes.
* Go `(V, bool)` lookup results are `Option V`; fallible construction is
  `Option`/`Except`-valued.
* `node.insert`/`node.insertMut` recurse on freshly created children, and
  the Go recursion diverges (stack overflow) when two distinct keys share a
  full 64-bit hash (beyond depth 31 every level index is 0, so colliding
  leaves are pushed down forever).  The embedding therefore threads an
  explicit recursion-depth budget (`fuel`); `none` models divergence of the
  Go code.  Depth 32 is the maximum attainable depth for terminating runs,
  so the public operations run with fuel 33 (one unit per visited depth
  0..32), which is proved sufficient for placed tries with collision-free
  hashes.
-/

namespace Immut

/-- Constant `bitsPerLevel = 2` from the source. -/
def bitsPerLevel : Nat := 2

/-- Constant `width = 1 << bitsPerLevel = 4` (children per node). -/
def width : Nat := 1 <<< bitsPerLevel

/-- Constant `maxDepth = 64 / bitsPerLevel = 32`. -/
def maxDepth : Nat := 64 / bitsPerLevel

/-- Constant `ones = ^uint64(0)`. -/
def ones : Nat := 2 ^ 64 - 1

/-- Constant `mask = ones >> (64 - bitsPerLevel)` (low two bits). -/
def mask : Nat := ones >>> (64 - bitsPerLevel)

/-- Go `uint` subtraction `a - b` wraps modulo `2 ^ 64`. -/
def goSub (a b : Nat) : Nat := (a % 2 ^ 64 + (2 ^ 64 - b % 2 ^ 64)) % 2 ^ 64

/-- `index(h, depth) = (h >> (64 - bitsPerLevel*(depth+1))) & mask` from the
source, with the shift amount computed in Go `uint` arithmetic (it wraps
around for `depth ≥ 32`, making the shift huge and the result `0`). -/
def index (h : Nat) (depth : Nat) : Nat :=
  (h >>> goSub 64 (bitsPerLevel * ((depth + 1) % 2 ^ 64) % 2 ^ 64)) &&& mask

example : index 0xFFFFFFFFFFFFFFFF 0 = 3 := by decide
example : index (1 <<< 62) 0 = 1 := by decide
example : index 7 31 = 3 := by decide
example : index 0xFFFFFFFFFFFFFFFF 32 = 0 := by decide
example : index 0xFFFFFFFFFFFFFFFF 33 = 0 := by decide

mutual

/-- The trie cell: `node[K, V]` holds an optional leaf (a key-value pair,
Go `*leaf[K, V]`) and an optional pointer to an inlined array of 4 children
(Go `*children[K, V]`). -/
inductive node (K V : Type) : Type where
  | mk (leaf : Option (K × V)) (children : Option (children4 K V)) : node K V

/-- The fixed-size 4-element child array `children[K, V] = [4]node[K, V]`. -/
inductive children4 (K V : Type) : Type where
  | mk (c0 c1 c2 c3 : node K V) : children4 K V

end

mutual

/-- Boolean structural equality of nodes (Go struct equality of values). -/
def node.beq {K V : Type} [DecidableEq K] [DecidableEq V] :
    node K V → node K V → Bool
  | .mk l c, .mk l' c' => decide (l = l') && node.beqc c c'

/-- Boolean structural equality of optional child arrays. -/
def node.beqc {K V : Type} [DecidableEq K] [DecidableEq V] :
    Option (children4 K V) → Option (children4 K V) → Bool
  | none, none => true
  | some c, some c' => children4.beq c c'
  | _, _ => false

/-- Boolean structural equality of child arrays. -/
def children4.beq {K V : Type} [DecidableEq K] [DecidableEq V] :
    children4 K V → children4 K V → Bool
  | .mk a b c d, .mk a' b' c' d' =>
    node.beq a a' && node.beq b b' && node.beq c c' && node.beq d d'

end

mutual

theorem node.beq_iff {K V : Type} [DecidableEq K] [DecidableEq V]
    (n m : node K V) : node.beq n m = true ↔ n = m := by
  cases n with
  | mk l c =>
    cases m with
    | mk l' c' =>
      simp only [node.beq, Bool.and_eq_true, decide_eq_true_eq]
      rw [node.beqc_iff]
      constructor
      · rintro ⟨h1, h2⟩; rw [h1, h2]
      · intro h; injection h with h1 h2; exact ⟨h1, h2⟩

theorem node.beqc_iff {K V : Type} [DecidableEq K] [DecidableEq V]
    (c c' : Option (children4 K V)) : node.beqc c c' = true ↔ c = c' := by
  cases c with
  | none =>
    cases c' with
    | none => simp [node.beqc]
    | some x => simp [node.beqc]
  | some x =>
    cases c' with
    | none => simp [node.beqc]
    | some y =>
      simp only [node.beqc, Option.some.injEq]
      exact children4.beq_iff_children x y

theorem children4.beq_iff_children {K V : Type} [DecidableEq K] [DecidableEq V]
    (c c' : children4 K V) : children4.beq c c' = true ↔ c = c' := by
  cases c with
  | mk a b x d =>
    cases c' with
    | mk a' b' x' d' =>
      simp only [children4.beq, Bool.and_eq_true]
      rw [node.beq_iff, node.beq_iff, node.beq_iff, node.beq_iff]
      constructor
      · rintro ⟨⟨⟨h1, h2⟩, h3⟩, h4⟩; rw [h1, h2, h3, h4]
      · intro h; injection h with h1 h2 h3 h4; exact ⟨⟨⟨h1, h2⟩, h3⟩, h4⟩

end

instance {K V : Type} [DecidableEq K] [DecidableEq V] :
    DecidableEq (node K V) := fun n m => decidable_of_iff _ (node.beq_iff n m)

variable {K V : Type}

/-- Field accessor for the optional leaf. -/
def node.leaf : node K V → Option (K × V)
  | .mk l _ => l

/-- Field accessor for the optional child array. -/
def node.children : node K V → Option (children4 K V)
  | .mk _ c => c

/-- `isEmpty` returns true if this node has no data
(`n.leaf == nil && n.children == nil`). -/
def node.isEmpty (n : node K V) : Bool :=
  n.leaf.isNone && n.children.isNone

/-- The zero value `node[K, V]{}`. -/
def node.empty : node K V := .mk none none

/-- The zero value `children[K, V]{}`: four empty nodes. -/
def children4.empty : children4 K V :=
  .mk node.empty node.empty node.empty node.empty

/-- Array read `c[i]`.  The source only ever indexes with `index(h, depth)`,
a value in `0..3`; indices `≥ 3` fall through to the last slot. -/
def children4.get : children4 K V → Nat → node K V
  | .mk c0 _ _ _, 0 => c0
  | .mk _ c1 _ _, 1 => c1
  | .mk _ _ c2 _, 2 => c2
  | .mk _ _ _ c3, _ => c3

/-- Array write `c[i] = x` (functional update of the copied array). -/
def children4.set : children4 K V → Nat → node K V → children4 K V
  | .mk _ c1 c2 c3, 0, x => .mk x c1 c2 c3
  | .mk c0 _ c2 c3, 1, x => .mk c0 x c2 c3
  | .mk c0 c1 _ c3, 2, x => .mk c0 c1 x c3
  | .mk c0 c1 c2 _, _, x => .mk c0 c1 c2 x

section GetDelete

variable [DecidableEq K]

mutual

/-- `node.get(k, h, depth)`: empty node misses; a leaf with the same key
hits; without children it misses; otherwise it recurses into the child at
`index(h, depth)` with `depth+1`. -/
def node.get : node K V → K → Nat → Nat → Option V
  | .mk none none, _, _, _ => none
  | .mk (some lf) cs, k, h, depth =>
    if lf.1 = k then some lf.2
    else
      match cs with
      | none => none
      | some c => children4.getRec c (index h depth) k h (depth + 1)
  | .mk none (some c), k, h, depth =>
    children4.getRec c (index h depth) k h (depth + 1)

/-- Helper performing `n.children[idx].get(k, h, depth+1)`. -/
def children4.getRec : children4 K V → Nat → K → Nat → Nat → Option V
  | .mk c0 _ _ _, 0, k, h, d => c0.get k h d
  | .mk _ c1 _ _, 1, k, h, d => c1.get k h d
  | .mk _ _ c2 _, 2, k, h, d => c2.get k h d
  | .mk _ _ _ c3, _, k, h, d => c3.get k h d

end

mutual

/-- `node.delete(k, h, depth)`: returns the new node and whether the key was
found.  An empty node reports not found; a leaf with the matching key is
cleared (children kept, no compaction); without children the node is
returned unchanged; otherwise it recurses into the child at
`index(h, depth)` and copies the path only when the key was found. -/
def node.delete : node K V → K → Nat → Nat → node K V × Bool
  | .mk none none, _, _, _ => (.mk none none, false)
  | .mk (some lf) cs, k, h, depth =>
    if lf.1 = k then (.mk none cs, true)
    else
      match cs with
      | none => (.mk (some lf) none, false)
      | some c =>
        match children4.deleteRec c (index h depth) k h (depth + 1) with
        | (_, false) => (.mk (some lf) (some c), false)
        | (nc, true) => (.mk (some lf) (some (c.set (index h depth) nc)), true)
  | .mk none (some c), k, h, depth =>
    match children4.deleteRec c (index h depth) k h (depth + 1) with
    | (_, false) => (.mk none (some c), false)
    | (nc, true) => (.mk none (some (c.set (index h depth) nc)), true)

/-- Helper performing `n.children[idx].delete(k, h, depth+1)`. -/
def children4.deleteRec : children4 K V → Nat → K → Nat → Nat → node K V × Bool
  | .mk c0 _ _ _, 0, k, h, d => c0.delete k h d
  | .mk _ c1 _ _, 1, k, h, d => c1.delete k h d
  | .mk _ _ c2 _, 2, k, h, d => c2.delete k h d
  | .mk _ _ _ c3, _, k, h, d => c3.delete k h d

end

end GetDelete

mutual

/-- `node.count()`: 1 per present leaf, summed recursively over all
children (children visited in index order). -/
def node.count : node K V → Nat
  | .mk l cs =>
    (match l with | some _ => 1 | none => 0) +
    (match cs with | none => 0 | some c => children4.countRec c)

/-- Helper summing the counts of the four children in order. -/
def children4.countRec : children4 K V → Nat
  | .mk a b c d => a.count + b.count + c.count + d.count

end

mutual

/-- Entries of the trie in `forEach` order: the node's own leaf first, then
the children in index order 0,1,2,3, depth first.  The derived `Map`
operations iterate with callbacks that never stop early, so a fold over
this list is exactly `node.forEach`. -/
def node.toList : node K V → List (K × V)
  | .mk l cs =>
    (match l with | some lf => [lf] | none => []) ++
    (match cs with | none => [] | some c => children4.toListRec c)

/-- Helper concatenating the entry lists of the four children in order. -/
def children4.toListRec : children4 K V → List (K × V)
  | .mk a b c d => a.toList ++ b.toList ++ c.toList ++ d.toList

end

example :
    (node.mk (some (3, 5)) none : node Nat Nat).get 3 0 0 = some 5 := by
  decide

example :
    (node.mk (some (3, 5)) none : node Nat Nat).toList = [(3, 5)] := by
  decide

section Insert

variable [DecidableEq K]

/-- `node.insert(k, v, h, depth)` (persistent, path copying), with an
explicit recursion-depth budget `fuel`; `none` models divergence of the Go
recursion (see the header).  The cases mirror the source in order: an empty
node becomes a fresh leaf; a node without a leaf stores the pair directly
(keeping its children); an equal key is overwritten in the copy; otherwise
the existing leaf is pushed down into the child at
`index(hash(existing.key), depth)`, the leaf is cleared, and the new pair
is inserted into the child at `index(h, depth)` of the updated array. -/
def node.insertF (hash : K → Nat) :
    Nat → node K V → K → V → Nat → Nat → Option (node K V)
  | 0, _, _, _, _, _ => none
  | _ + 1, .mk none cs, k, v, _, _ => some (.mk (some (k, v)) cs)
  | f + 1, .mk (some lf) cs, k, v, h, depth =>
    if lf.1 = k then some (.mk (some (k, v)) cs)
    else
      match node.insertF hash f ((cs.getD children4.empty).get
          (index (hash lf.1) depth)) lf.1 lf.2 (hash lf.1) (depth + 1) with
      | none => none
      | some ec =>
        match node.insertF hash f (((cs.getD children4.empty).set
            (index (hash lf.1) depth) ec).get (index h depth)) k v h
            (depth + 1) with
        | none => none
        | some nc =>
          some (.mk none (some (((cs.getD children4.empty).set
            (index (hash lf.1) depth) ec).set (index h depth) nc)))

/-- `node.insertMut(k, v, h, depth)` (in-place, for the `Builder`), modelled
as a state-passing function returning the mutated node.  The Go code
performs the same case analysis as `insert` but updates the receiver
instead of copying the path; as a value transformer it is the same function
(proved below in `insertMutF_eq_insertF`). -/
def node.insertMutF (hash : K → Nat) :
    Nat → node K V → K → V → Nat → Nat → Option (node K V)
  | 0, _, _, _, _, _ => none
  | _ + 1, .mk none cs, k, v, _, _ => some (.mk (some (k, v)) cs)
  | f + 1, .mk (some lf) cs, k, v, h, depth =>
    if lf.1 = k then some (.mk (some (k, v)) cs)
    else
      match node.insertMutF hash f ((cs.getD children4.empty).get
          (index (hash lf.1) depth)) lf.1 lf.2 (hash lf.1) (depth + 1) with
      | none => none
      | some ec =>
        match node.insertMutF hash f (((cs.getD children4.empty).set
            (index (hash lf.1) depth) ec).get (index h depth)) k v h
            (depth + 1) with
        | none => none
        | some nc =>
          some (.mk none (some (((cs.getD children4.empty).set
            (index (hash lf.1) depth) ec).set (index h depth) nc)))

mutual

/-- `node.deleteMut(k, h, depth)` (in-place, for the `Builder`), modelled as
a state-passing function returning the mutated node and the found flag.
The only mutation the Go code performs is clearing the leaf of the node
whose leaf key matches; on a miss nothing is modified. -/
def node.deleteMut : node K V → K → Nat → Nat → node K V × Bool
  | .mk none none, _, _, _ => (.mk none none, false)
  | .mk (some lf) cs, k, h, depth =>
    if lf.1 = k then (.mk none cs, true)
    else
      match cs with
      | none => (.mk (some lf) none, false)
      | some c =>
        match children4.deleteMutRec c (index h depth) k h (depth + 1) with
        | (nc, found) => (.mk (some lf) (some (c.set (index h depth) nc)), found)
  | .mk none (some c), k, h, depth =>
    match children4.deleteMutRec c (index h depth) k h (depth + 1) with
    | (nc, found) => (.mk none (some (c.set (index h depth) nc)), found)

/-- Helper performing `n.children[idx].deleteMut(k, h, depth+1)`. -/
def children4.deleteMutRec :
    children4 K V → Nat → K → Nat → Nat → node K V × Bool
  | .mk c0 _ _ _, 0, k, h, d => c0.deleteMut k h d
  | .mk _ c1 _ _, 1, k, h, d => c1.deleteMut k h d
  | .mk _ _ c2 _, 2, k, h, d => c2.deleteMut k h d
  | .mk _ _ _ c3, _, k, h, d => c3.deleteMut k h d

end

end Insert

/-- Fuel used by the public operations: one unit per visited depth 0..32.
Terminating runs of the Go recursion never pass depth 32 (beyond depth 31
all level indices are 0 and colliding leaves can never separate), so this
budget is exact: `none` at fuel 33 corresponds to a diverging Go run. -/
def insertFuel : Nat := 33

/-- `Map[K, V]`: the persistent public handle, a root node plus the cached
element count (`len int`). -/
structure Map (K V : Type) where
  root : node K V
  len : Int

instance {K V : Type} [DecidableEq K] [DecidableEq V] :
    DecidableEq (Map K V) := fun m m' => by
  cases m with
  | mk r l =>
    cases m' with
    | mk r' l' =>
      exact
        if h : r = r' ∧ l = l' then
          .isTrue (by rw [h.1, h.2])
        else
          .isFalse (by
            intro hc
            injection hc with h1 h2
            exact h ⟨h1, h2⟩)

/-- `NewMap()`: the empty map. -/
def NewMap {K V : Type} : Map K V := ⟨node.empty, 0⟩

section MapOps

variable [DecidableEq K] (hash : K → Nat)

/-- `Map.Get(k)`: hash the key and delegate to `node.get` at depth 0. -/
def Map.Get (m : Map K V) (k : K) : Option V :=
  m.root.get k (hash k) 0

/-- `Map.Set(k, v)`: existence pre-check via `node.get` (to decide whether
the cached count increments), then `node.insert`; returns the new map. -/
def Map.Set (m : Map K V) (k : K) (v : V) : Option (Map K V) :=
  match m.root.insertF hash insertFuel k v (hash k) 0 with
  | none => none
  | some r =>
    some ⟨r, if (m.root.get k (hash k) 0).isSome then m.len else m.len + 1⟩

/-- `Map.Delete(k)`: delegate to `node.delete`; on a miss the very same map
is returned, on a hit the new root is paired with the decremented count. -/
def Map.Delete (m : Map K V) (k : K) : Map K V :=
  match m.root.delete k (hash k) 0 with
  | (_, false) => m
  | (r, true) => ⟨r, m.len - 1⟩

/-- `Map.Len()`: the cached count (no traversal). -/
def Map.Len (m : Map K V) : Int :=
  m.len

/-- `Map.Has(k)`: whether `Get` finds the key. -/
def Map.Has (m : Map K V) (k : K) : Bool :=
  (m.Get hash k).isSome

/-- Entries of the map in iteration (`ForEach`) order. -/
def Map.toList (m : Map K V) : List (K × V) :=
  m.root.toList

/-- `Map.Union(other)`: fold over `other`'s entries, `Set`-ing each into the
receiver (the Go callback always continues). -/
def Map.Union (m other : Map K V) : Option (Map K V) :=
  other.toList.foldlM (fun acc p => acc.Set hash p.1 p.2) m

/-- `Map.Intersection(other)`: keep the receiver's entries whose key `other`
has, `Set` into a fresh map; values come from the receiver. -/
def Map.Intersection (m other : Map K V) : Option (Map K V) :=
  m.toList.foldlM
    (fun acc p => if other.Has hash p.1 then acc.Set hash p.1 p.2 else some acc)
    NewMap

/-- `Map.Difference(other)`: delete every key of `other` from the
receiver. -/
def Map.Difference (m other : Map K V) : Map K V :=
  other.toList.foldl (fun acc p => acc.Delete hash p.1) m

/-- `Map.SymmetricDifference(other)`: the receiver's entries whose key is
not in `other`, then `other`'s entries whose key is not in the receiver,
`Set` into a fresh map in that order. -/
def Map.SymmetricDifference (m other : Map K V) : Option (Map K V) :=
  (m.toList.foldlM
      (fun acc p =>
        if other.Has hash p.1 then some acc else acc.Set hash p.1 p.2)
      NewMap).bind
    fun r =>
      other.toList.foldlM
        (fun acc p =>
          if m.Has hash p.1 then some acc else acc.Set hash p.1 p.2)
        r

/-- `Map.Merge(other)`: an alias for `Union`. -/
def Map.Merge (m other : Map K V) : Option (Map K V) :=
  m.Union hash other

/-- `Map.Filter(fn)`: the receiver's entries satisfying the predicate,
`Set` into a fresh map. -/
def Map.Filter (m : Map K V) (fn : K → V → Bool) : Option (Map K V) :=
  m.toList.foldlM
    (fun acc p => if fn p.1 p.2 then acc.Set hash p.1 p.2 else some acc)
    NewMap

/-- `Map.Equal(other)`: false when the cached lengths differ, else every
receiver entry must be found in `other` with an equal value (the Go
callback stops at the first mismatch, which agrees with this
all-entries check). -/
def Map.Equal [DecidableEq V] (m other : Map K V) : Bool :=
  if m.len ≠ other.len then false
  else
    m.toList.all fun p =>
      match other.Get hash p.1 with
      | none => false
      | some w => decide (p.2 = w)

end MapOps

/-- `Builder[K, V]`: the single-owner mutable accumulator, same fields as
`Map`. -/
structure Builder (K V : Type) where
  root : node K V
  len : Int

/-- `NewBuilder()`: the zero builder. -/
def NewBuilder {K V : Type} : Builder K V := ⟨node.empty, 0⟩

section BuilderOps

variable [DecidableEq K] (hash : K → Nat)

/-- `Builder.Set(k, v)`: existence pre-check via `node.get`, then
`node.insertMut` on the builder's root, incrementing the count on a new
key. -/
def Builder.Set (b : Builder K V) (k : K) (v : V) : Option (Builder K V) :=
  match b.root.insertMutF hash insertFuel k v (hash k) 0 with
  | none => none
  | some r =>
    some ⟨r, if (b.root.get k (hash k) 0).isSome then b.len else b.len + 1⟩

/-- `Builder.Delete(k)`: `node.deleteMut` on the builder's root,
decrementing the count when the key was found. -/
def Builder.Delete (b : Builder K V) (k : K) : Builder K V :=
  match b.root.deleteMut k (hash k) 0 with
  | (r, found) => ⟨r, if found then b.len - 1 else b.len⟩

/-- `Builder.Build()`: a map over the builder's current root and count. -/
def Builder.Build (b : Builder K V) : Map K V :=
  ⟨b.root, b.len⟩

end BuilderOps

/-- A single `Set`/`Delete` operation, for stating properties about
arbitrary operation sequences. -/
inductive Op (K V : Type) where
  | set (k : K) (v : V)
  | del (k : K)

section OpSeq

variable [DecidableEq K] (hash : K → Nat)

/-- Apply one operation through the persistent `Map` interface. -/
def applyOp (m : Map K V) : Op K V → Option (Map K V)
  | .set k v => m.Set hash k v
  | .del k => some (m.Delete hash k)

/-- Apply a sequence of operations through the persistent `Map`
interface. -/
def applyOps (m : Map K V) (ops : List (Op K V)) : Option (Map K V) :=
  ops.foldlM (applyOp hash) m

/-- Apply one operation through the mutable `Builder` interface. -/
def applyOpB (b : Builder K V) : Op K V → Option (Builder K V)
  | .set k v => b.Set hash k v
  | .del k => some (b.Delete hash k)

/-- Apply a sequence of operations to a fresh `Builder` and `Build()` the
result. -/
def buildOps (ops : List (Op K V)) : Option (Map K V) :=
  (ops.foldlM (applyOpB hash) NewBuilder).map Builder.Build

end OpSeq

/-- A concrete hash function for evaluated instances: key `n` hashes to its
residue mod 4 placed in the top two bits, so small keys get distinct level-0
indices, mirroring a collision-free 64-bit hash on the keys used. -/
def testHash (n : Nat) : Nat := (n % 4) <<< 62

example : index (testHash 1) 0 = 1 := by decide
example : index (testHash 2) 0 = 2 := by decide

/-- The map `NewMap.Set(1, 10).Set(2, 20)` under `testHash`: key 1 was
pushed down to child 1 when key 2 arrived, so the root has no leaf but a
populated child array. -/
def twoKeyMap : Option (Map Nat Nat) :=
  (NewMap.Set testHash 1 10).bind fun m => m.Set testHash 2 20

example :
    twoKeyMap =
      some ⟨node.mk none (some (children4.mk node.empty
        (node.mk (some (1, 10)) none) (node.mk (some (2, 20)) none)
        node.empty)), 2⟩ := by
  decide

/-- The map `NewMap.Set(1, 10).Set(2, 20).Set(1, 30)` under `testHash`.
The final `Set` overwrites key 1, which had been pushed down to a child:
`node.insert` reaches the leaf-free root and stores `(1, 30)` there without
checking the children, so the trie now carries key 1 twice (the stale
`(1, 10)` survives in child 1). -/
def dupMap : Option (Map Nat Nat) :=
  twoKeyMap.bind fun m => m.Set testHash 1 30

example :
    dupMap =
      some ⟨node.mk (some (1, 30)) (some (children4.mk node.empty
        (node.mk (some (1, 10)) none) (node.mk (some (2, 20)) none)
        node.empty)), 2⟩ := by
  decide

example : dupMap.map (fun m => m.root.count) = some 3 := by decide

example :
    dupMap.map (fun m => (m.Delete testHash 1).Get testHash 1) =
      some (some 10) := by
  decide

/-! ### Array and bridge lemmas -/

theorem children4.get_set_self (c : children4 K V) (i : Nat) (x : node K V)
    (hi : i < 4) : (c.set i x).get i = x := by
  cases c
  interval_cases i <;> simp [children4.get, children4.set]

theorem children4.get_set_ne (c : children4 K V) (i j : Nat) (x : node K V)
    (hi : i < 4) (hj : j < 4) (hij : j ≠ i) : (c.set i x).get j = c.get j := by
  cases c
  interval_cases i <;> interval_cases j <;>
    simp_all [children4.get, children4.set]

/-- Writing back the value just read leaves the array unchanged. -/
theorem children4.set_get_self (c : children4 K V) (i : Nat) :
    c.set i (c.get i) = c := by
  cases c
  match i with
  | 0 => rfl
  | 1 => rfl
  | 2 => rfl
  | n + 3 => rfl

theorem index_lt_four (h d : Nat) : index h d < 4 := by
  have : (h >>> goSub 64 (bitsPerLevel * ((d + 1) % 2 ^ 64) % 2 ^ 64)) &&& 3 ≤ 3 :=
    Nat.and_le_right
  calc index h d ≤ 3 := this
    _ < 4 := by omega

theorem children4.empty_get (i : Nat) :
    (children4.empty : children4 K V).get i = node.empty := by
  match i with
  | 0 => rfl
  | 1 => rfl
  | 2 => rfl
  | n + 3 => rfl

section BridgeLemmas

variable [DecidableEq K]

theorem children4.getRec_eq (c : children4 K V) (i : Nat) (k : K)
    (h d : Nat) : children4.getRec c i k h d = (c.get i).get k h d := by
  cases c
  match i with
  | 0 => rfl
  | 1 => rfl
  | 2 => rfl
  | n + 3 => rfl

theorem children4.deleteRec_eq (c : children4 K V) (i : Nat) (k : K)
    (h d : Nat) : children4.deleteRec c i k h d = (c.get i).delete k h d := by
  cases c
  match i with
  | 0 => rfl
  | 1 => rfl
  | 2 => rfl
  | n + 3 => rfl

theorem children4.deleteMutRec_eq (c : children4 K V) (i : Nat) (k : K)
    (h d : Nat) :
    children4.deleteMutRec c i k h d = (c.get i).deleteMut k h d := by
  cases c
  match i with
  | 0 => rfl
  | 1 => rfl
  | 2 => rfl
  | n + 3 => rfl

/-! ### Shape lemmas for `get` -/

theorem get_mk_none_none (k : K) (h d : Nat) :
    (node.mk none none : node K V).get k h d = none := rfl

theorem get_mk_some (lf : K × V) (cs : Option (children4 K V)) (k : K)
    (h d : Nat) :
    (node.mk (some lf) cs).get k h d =
      if lf.1 = k then some lf.2
      else ((cs.getD children4.empty).get (index h d)).get k h (d + 1) := by
  cases cs with
  | none =>
    simp only [node.get, Option.getD, children4.empty_get]
    rfl
  | some c =>
    simp only [node.get, Option.getD, children4.getRec_eq]

theorem get_mk_none_some (c : children4 K V) (k : K) (h d : Nat) :
    (node.mk none (some c)).get k h d = (c.get (index h d)).get k h (d + 1) := by
  simp only [node.get, children4.getRec_eq]

end BridgeLemmas

/-- Structural induction over nodes: a node either has no child array, or
has one and the motive holds for all four children. -/
def node.inductionOn {motive : node K V → Prop}
    (base : ∀ l, motive (node.mk l none))
    (step : ∀ l a b c d, motive a → motive b → motive c → motive d →
      motive (node.mk l (some (children4.mk a b c d)))) :
    ∀ n : node K V, motive n
  | .mk l none => base l
  | .mk l (some (.mk a b c d)) =>
    step l a b c d (node.inductionOn base step a) (node.inductionOn base step b)
      (node.inductionOn base step c) (node.inductionOn base step d)

section CoreLemmas

variable [DecidableEq K]

/-! ### Shape lemmas for `delete` and `deleteMut` -/

theorem get_mk_none (cs : Option (children4 K V)) (k : K) (h d : Nat) :
    (node.mk none cs).get k h d =
      ((cs.getD children4.empty).get (index h d)).get k h (d + 1) := by
  cases cs with
  | none => simp [Option.getD, children4.empty_get, get_mk_none_none, node.empty]
  | some c => exact get_mk_none_some c k h d

theorem delete_mk_some_none (lf : K × V) (k : K) (h d : Nat) :
    (node.mk (some lf) none : node K V).delete k h d =
      if lf.1 = k then ((node.mk none none : node K V), true)
      else (node.mk (some lf) none, false) := by
  simp only [node.delete]

theorem delete_mk_some_some (lf : K × V) (c : children4 K V) (k : K)
    (h d : Nat) :
    (node.mk (some lf) (some c)).delete k h d =
      if lf.1 = k then (node.mk none (some c), true)
      else
        match (c.get (index h d)).delete k h (d + 1) with
        | (_, false) => (node.mk (some lf) (some c), false)
        | (nc, true) =>
          (node.mk (some lf) (some (c.set (index h d) nc)), true) := by
  simp only [node.delete, children4.deleteRec_eq]

theorem delete_mk_none_some (c : children4 K V) (k : K) (h d : Nat) :
    (node.mk none (some c)).delete k h d =
      match (c.get (index h d)).delete k h (d + 1) with
      | (_, false) => (node.mk none (some c), false)
      | (nc, true) => (node.mk none (some (c.set (index h d) nc)), true) := by
  simp only [node.delete, children4.deleteRec_eq]

/-! ### Lookup after insertion of the same key -/

theorem get_insertF_self (hash : K → Nat) :
    ∀ (f : Nat) (n : node K V) (k : K) (v : V) (h d : Nat) (n' : node K V),
      node.insertF hash f n k v h d = some n' → n'.get k h d = some v := by
  intro f
  induction f with
  | zero =>
    intro n k v h d n' hins
    simp [node.insertF] at hins
  | succ f ih =>
    intro n k v h d n' hins
    obtain ⟨l, cs⟩ := n
    cases l with
    | none =>
      simp only [node.insertF, Option.some.injEq] at hins
      subst hins
      rw [get_mk_some]
      simp
    | some lf =>
      simp only [node.insertF] at hins
      by_cases hk : lf.1 = k
      · rw [if_pos hk] at hins
        injection hins with hins
        subst hins
        rw [get_mk_some]
        simp
      · rw [if_neg hk] at hins
        cases hec : node.insertF hash f ((cs.getD children4.empty).get
            (index (hash lf.1) d)) lf.1 lf.2 (hash lf.1) (d + 1) with
        | none => rw [hec] at hins; cases hins
        | some ec =>
          simp only [hec] at hins
          cases hnc : node.insertF hash f (((cs.getD children4.empty).set
              (index (hash lf.1) d) ec).get (index h d)) k v h (d + 1) with
          | none => simp [hnc] at hins
          | some nc =>
            simp only [hnc, Option.some.injEq] at hins
            subst hins
            rw [get_mk_none_some,
              children4.get_set_self _ _ _ (index_lt_four h d)]
            exact ih _ k v h (d + 1) nc hnc

/-! ### Insertion does not disturb other keys -/

theorem get_insertF_frame (hash : K → Nat) :
    ∀ (f : Nat) (n : node K V) (k k' : K) (v : V) (d : Nat) (n' : node K V),
      k' ≠ k →
      node.insertF hash f n k v (hash k) d = some n' →
      n'.get k' (hash k') d = n.get k' (hash k') d := by
  intro f
  induction f with
  | zero =>
    intro n k k' v d n' _ hins
    simp [node.insertF] at hins
  | succ f ih =>
    intro n k k' v d n' hkk hins
    obtain ⟨l, cs⟩ := n
    cases l with
    | none =>
      simp only [node.insertF, Option.some.injEq] at hins
      subst hins
      rw [get_mk_some, get_mk_none, if_neg (fun hh => hkk hh.symm)]
    | some lf =>
      simp only [node.insertF] at hins
      by_cases hk : lf.1 = k
      · rw [if_pos hk] at hins
        injection hins with hins
        subst hins
        rw [get_mk_some, get_mk_some, if_neg (fun hh => hkk hh.symm),
          if_neg (fun hh => hkk (hk ▸ hh).symm)]
      · rw [if_neg hk] at hins
        cases hec : node.insertF hash f ((cs.getD children4.empty).get
            (index (hash lf.1) d)) lf.1 lf.2 (hash lf.1) (d + 1) with
        | none => rw [hec] at hins; cases hins
        | some ec =>
          simp only [hec] at hins
          cases hnc : node.insertF hash f (((cs.getD children4.empty).set
              (index (hash lf.1) d) ec).get (index (hash k) d)) k v (hash k)
              (d + 1) with
          | none => simp [hnc] at hins
          | some nc =>
            simp only [hnc, Option.some.injEq] at hins
            subst hins
            rw [get_mk_none_some, get_mk_some]
            have hnI := index_lt_four (hash k) d
            have heI := index_lt_four (hash lf.1) d
            have hkI := index_lt_four (hash k') d
            by_cases hlf : lf.1 = k'
            · -- the reader's key is the pushed-down existing leaf
              have hse := get_insertF_self hash f _ lf.1 lf.2 (hash lf.1)
                (d + 1) ec hec
              rw [hlf] at hse
              have heq : index (hash k') d = index (hash lf.1) d := by
                rw [hlf]
              rw [if_pos hlf]
              by_cases hin : index (hash k') d = index (hash k) d
              · rw [hin, children4.get_set_self _ _ _ hnI,
                  ih _ k k' v (d + 1) nc hkk hnc,
                  heq.symm.trans hin, children4.get_set_self _ _ _ hnI]
                exact hse
              · rw [children4.get_set_ne _ _ _ _ hnI hkI hin, heq,
                  children4.get_set_self _ _ _ heI]
                exact hse
            · -- the reader's key is neither the inserted nor the pushed key
              have hlf' : k' ≠ lf.1 := fun hh => hlf hh.symm
              rw [if_neg hlf]
              by_cases hin : index (hash k') d = index (hash k) d
              · rw [hin, children4.get_set_self _ _ _ hnI,
                  ih _ k k' v (d + 1) nc hkk hnc]
                by_cases hie : index (hash k) d = index (hash lf.1) d
                · rw [hie, children4.get_set_self _ _ _ heI,
                    ih _ lf.1 k' lf.2 (d + 1) ec hlf' hec, ← hie, ← hin]
                · rw [children4.get_set_ne _ _ _ _ heI hnI hie, ← hin]
              · rw [children4.get_set_ne _ _ _ _ hnI hkI hin]
                by_cases hie : index (hash k') d = index (hash lf.1) d
                · rw [hie, children4.get_set_self _ _ _ heI,
                    ih _ lf.1 k' lf.2 (d + 1) ec hlf' hec, ← hie]
                · rw [children4.get_set_ne _ _ _ _ heI hkI hie]

/-! ### Deletion does not disturb other keys -/

theorem get_delete_frame (k k' : K) (hkk : k' ≠ k) (hk hk' : Nat) :
    ∀ (n : node K V) (d : Nat),
      ((n.delete k hk d).1).get k' hk' d = n.get k' hk' d := by
  intro n
  induction n using node.inductionOn with
  | base l =>
    intro d
    cases l with
    | none => rfl
    | some lf =>
      rw [delete_mk_some_none]
      by_cases hlk : lf.1 = k
      · rw [if_pos hlk]
        rw [get_mk_none_none, get_mk_some,
          if_neg (fun hh => hkk (hlk ▸ hh).symm)]
        simp [Option.getD, children4.empty_get, node.empty, get_mk_none_none]
      · rw [if_neg hlk]
  | step l a b c d iha ihb ihc ihd =>
    intro dep
    have ihall : ∀ (i : Nat) (d' : Nat),
        (((children4.mk a b c d).get i).delete k hk d').1.get k' hk' d' =
          ((children4.mk a b c d).get i).get k' hk' d' := by
      intro i d'
      match i with
      | 0 => exact iha d'
      | 1 => exact ihb d'
      | 2 => exact ihc d'
      | n + 3 => exact ihd d'
    have hkI := index_lt_four hk dep
    have hk'I := index_lt_four hk' dep
    cases l with
    | some lf =>
      rw [delete_mk_some_some]
      by_cases hlk : lf.1 = k
      · rw [if_pos hlk, get_mk_none_some, get_mk_some,
          if_neg (fun hh => hkk (hlk ▸ hh).symm)]
        simp [Option.getD]
      · rw [if_neg hlk]
        cases hdel : ((children4.mk a b c d).get (index hk dep)).delete k hk
            (dep + 1) with
        | mk nc found =>
          cases found with
          | false => rfl
          | true =>
            rw [get_mk_some, get_mk_some]
            by_cases hlf : lf.1 = k'
            · rw [if_pos hlf, if_pos hlf]
            · rw [if_neg hlf, if_neg hlf]
              simp only [Option.getD]
              by_cases hii : index hk' dep = index hk dep
              · rw [hii, children4.get_set_self _ _ _ hkI]
                have := ihall (index hk dep) (dep + 1)
                rw [hdel] at this
                exact this
              · rw [children4.get_set_ne _ _ _ _ hkI hk'I hii]
    | none =>
      rw [delete_mk_none_some]
      cases hdel : ((children4.mk a b c d).get (index hk dep)).delete k hk
          (dep + 1) with
      | mk nc found =>
        cases found with
        | false => rfl
        | true =>
          rw [get_mk_none_some, get_mk_none_some]
          by_cases hii : index hk' dep = index hk dep
          · rw [hii, children4.get_set_self _ _ _ hkI]
            have := ihall (index hk dep) (dep + 1)
            rw [hdel] at this
            exact this
          · rw [children4.get_set_ne _ _ _ _ hkI hk'I hii]

end CoreLemmas

section MutEquiv

variable [DecidableEq K]

/-- A miss of `node.delete` returns the receiver unchanged (no copy is made
on a no-op delete). -/
theorem delete_miss_id (n : node K V) (k : K) (h d : Nat)
    (hm : (n.delete k h d).2 = false) : (n.delete k h d).1 = n := by
  obtain ⟨l, cs⟩ := n
  cases l with
  | none =>
    cases cs with
    | none => rfl
    | some c =>
      rw [delete_mk_none_some] at hm ⊢
      cases hdel : (c.get (index h d)).delete k h (d + 1) with
      | mk nc found =>
        cases found with
        | false => rfl
        | true => rw [hdel] at hm; simp at hm
  | some lf =>
    cases cs with
    | none =>
      rw [delete_mk_some_none] at hm ⊢
      by_cases hlk : lf.1 = k
      · rw [if_pos hlk] at hm; simp at hm
      · rw [if_neg hlk]
    | some c =>
      rw [delete_mk_some_some] at hm ⊢
      by_cases hlk : lf.1 = k
      · rw [if_pos hlk] at hm; simp at hm
      · rw [if_neg hlk] at hm ⊢
        cases hdel : (c.get (index h d)).delete k h (d + 1) with
        | mk nc found =>
          cases found with
          | false => rfl
          | true => rw [hdel] at hm; simp at hm

/-- The mutating insertion of the `Builder` computes the same node as the
persistent insertion: the Go variants differ only in copying, which a value
semantics cannot observe. -/
theorem insertMutF_eq_insertF (hash : K → Nat) :
    ∀ (f : Nat) (n : node K V) (k : K) (v : V) (h d : Nat),
      node.insertMutF hash f n k v h d = node.insertF hash f n k v h d := by
  intro f
  induction f with
  | zero => intro n k v h d; rfl
  | succ f ih =>
    intro n k v h d
    obtain ⟨l, cs⟩ := n
    cases l with
    | none => rfl
    | some lf =>
      simp only [node.insertMutF, node.insertF, ih]

/-- The mutating deletion of the `Builder` computes the same node and found
flag as the persistent deletion. -/
theorem deleteMut_eq_delete (k : K) (h : Nat) :
    ∀ (n : node K V) (d : Nat), n.deleteMut k h d = n.delete k h d := by
  intro n
  induction n using node.inductionOn with
  | base l =>
    intro d
    cases l with
    | none => rfl
    | some lf => rfl
  | step l a b c dd iha ihb ihc ihd =>
    intro dep
    have ihall : ∀ (i : Nat) (d' : Nat),
        ((children4.mk a b c dd).get i).deleteMut k h d' =
          ((children4.mk a b c dd).get i).delete k h d' := by
      intro i d'
      match i with
      | 0 => exact iha d'
      | 1 => exact ihb d'
      | 2 => exact ihc d'
      | n + 3 => exact ihd d'
    have hrec : children4.deleteMutRec (children4.mk a b c dd)
        (index h dep) k h (dep + 1) =
        ((children4.mk a b c dd).get (index h dep)).delete k h (dep + 1) := by
      rw [children4.deleteMutRec_eq]
      exact ihall (index h dep) (dep + 1)
    cases l with
    | some lf =>
      rw [delete_mk_some_some]
      simp only [node.deleteMut, hrec]
      by_cases hlk : lf.1 = k
      · rw [if_pos hlk, if_pos hlk]
      · rw [if_neg hlk, if_neg hlk]
        cases hdel : ((children4.mk a b c dd).get (index h dep)).delete k h
            (dep + 1) with
        | mk nc found =>
          cases found with
          | false =>
            have hid : nc = (children4.mk a b c dd).get (index h dep) := by
              have h2 := delete_miss_id ((children4.mk a b c dd).get
                (index h dep)) k h (dep + 1) (by rw [hdel])
              rw [hdel] at h2
              exact h2
            subst hid
            simp [children4.set_get_self]
          | true => rfl
    | none =>
      rw [delete_mk_none_some]
      simp only [node.deleteMut, hrec]
      cases hdel : ((children4.mk a b c dd).get (index h dep)).delete k h
          (dep + 1) with
      | mk nc found =>
        cases found with
        | false =>
          have hid : nc = (children4.mk a b c dd).get (index h dep) := by
            have h2 := delete_miss_id ((children4.mk a b c dd).get
              (index h dep)) k h (dep + 1) (by rw [hdel])
            rw [hdel] at h2
            exact h2
          subst hid
          simp [children4.set_get_self]
        | true => rfl

/-- `Builder.Set` then `Build` agrees with `Build` then `Map.Set`. -/
theorem Builder.Set_Build (hash : K → Nat) (b : Builder K V) (k : K)
    (v : V) :
    (b.Set hash k v).map Builder.Build = (Builder.Build b).Set hash k v := by
  unfold Builder.Set Map.Set Builder.Build
  rw [insertMutF_eq_insertF]
  cases node.insertF hash insertFuel b.root k v (hash k) 0 with
  | none => rfl
  | some r => rfl

/-- `Builder.Delete` then `Build` agrees with `Build` then `Map.Delete`. -/
theorem Builder.Delete_Build (hash : K → Nat) (b : Builder K V) (k : K) :
    (b.Delete hash k).Build = (Builder.Build b).Delete hash k := by
  unfold Builder.Delete Map.Delete Builder.Build
  rw [deleteMut_eq_delete]
  cases hdel : b.root.delete k (hash k) 0 with
  | mk r found =>
    cases found with
    | false =>
      have hid := delete_miss_id b.root k (hash k) 0 (by rw [hdel])
      rw [hdel] at hid
      have hr : r = b.root := hid
      subst hr
      rfl
    | true => rfl

/-- Running a sequence of operations through a fresh `Builder` and building
yields exactly the map obtained by the persistent operations from the empty
map (same root node, same cached length) — also when divergence is
reported, it is reported by both. -/
theorem buildOps_eq_applyOps (hash : K → Nat) (ops : List (Op K V)) :
    buildOps hash ops = applyOps hash NewMap ops := by
  suffices h : ∀ b : Builder K V,
      ((ops.foldlM (applyOpB hash) b).map Builder.Build) =
        applyOps hash (Builder.Build b) ops from h NewBuilder
  induction ops with
  | nil => intro b; rfl
  | cons op rest ih =>
    intro b
    cases op with
    | set k v =>
      show ((b.Set hash k v).bind (rest.foldlM (applyOpB hash))).map
          Builder.Build =
        ((Builder.Build b).Set hash k v).bind fun m => applyOps hash m rest
      rw [← Builder.Set_Build]
      cases b.Set hash k v with
      | none => rfl
      | some b' =>
        show ((rest.foldlM (applyOpB hash)) b').map Builder.Build =
          applyOps hash (Builder.Build b') rest
        exact ih b'
    | del k =>
      show ((rest.foldlM (applyOpB hash)) (b.Delete hash k)).map
          Builder.Build =
        applyOps hash ((Builder.Build b).Delete hash k) rest
      rw [← Builder.Delete_Build]
      exact ih (b.Delete hash k)

end MutEquiv

section MapLemmas

variable [DecidableEq K]

/-- Map-level round trip: a successful `Set` makes `Get` of the same key
return the new value. -/
theorem Map.Get_Set_self (hash : K → Nat) (m m' : Map K V) (k : K) (v : V)
    (hset : m.Set hash k v = some m') : m'.Get hash k = some v := by
  unfold Map.Set at hset
  cases hins : m.root.insertF hash insertFuel k v (hash k) 0 with
  | none => rw [hins] at hset; cases hset
  | some r =>
    simp only [hins, Option.some.injEq] at hset
    subst hset
    exact get_insertF_self hash _ _ k v (hash k) 0 r hins

/-- Map-level frame: a successful `Set` leaves every other key's lookup
unchanged. -/
theorem Map.Get_Set_frame (hash : K → Nat) (m m' : Map K V) (k k' : K)
    (v : V) (hne : k' ≠ k) (hset : m.Set hash k v = some m') :
    m'.Get hash k' = m.Get hash k' := by
  unfold Map.Set at hset
  cases hins : m.root.insertF hash insertFuel k v (hash k) 0 with
  | none => rw [hins] at hset; cases hset
  | some r =>
    simp only [hins, Option.some.injEq] at hset
    subst hset
    exact get_insertF_frame hash _ _ k k' v 0 r hne hins

/-- Map-level frame: `Delete` leaves every other key's lookup unchanged. -/
theorem Map.Get_Delete_frame (hash : K → Nat) (m : Map K V) (k k' : K)
    (hne : k' ≠ k) : (m.Delete hash k).Get hash k' = m.Get hash k' := by
  unfold Map.Delete
  cases hdel : m.root.delete k (hash k) 0 with
  | mk r found =>
    cases found with
    | false => rfl
    | true =>
      have := get_delete_frame k k' hne (hash k) (hash k') m.root 0
      rw [hdel] at this
      exact this

end MapLemmas

/-! ### Concrete maps reachable through the public interface, used to
exhibit the duplicate-key defect of `node.insert` -/

/-- The operation sequence `Set(1,10); Set(2,20); Set(1,30)`. -/
def dupOps : List (Op Nat Nat) := [.set 1 10, .set 2 20, .set 1 30]

/-- The map obtained by `dupOps` from the empty map under `testHash`:
key 1 occurs both at the root leaf (value 30) and, stale, in child 1
(value 10). -/
def dupM : Map Nat Nat :=
  ⟨node.mk (some (1, 30)) (some (children4.mk node.empty
    (node.mk (some (1, 10)) none) (node.mk (some (2, 20)) none)
    node.empty)), 2⟩

/-- `dupM.Delete(1)`: the root leaf `(1, 30)` is removed, resurrecting the
stale `(1, 10)`; the cached length drops to 1 although two keys remain. -/
def aM : Map Nat Nat :=
  ⟨node.mk none (some (children4.mk node.empty
    (node.mk (some (1, 10)) none) (node.mk (some (2, 20)) none)
    node.empty)), 1⟩

/-- The singleton map `Set(3, 40)` on the empty map. -/
def bM : Map Nat Nat := ⟨node.mk (some (3, 40)) none, 1⟩

example : applyOps testHash NewMap dupOps = some dupM := by decide

example : applyOps testHash NewMap (dupOps ++ [.del 1]) = some aM := by
  decide

/-! ### Claim theorems -/

/-- C1: for every map `m`, key `k` and value `v`, a (terminating) call
`m.Set(k, v)` yields a map whose `Get(k)` returns `(v, true)`, and this
result is unchanged after any number of further `Set`/`Delete` calls
performed on other maps derived from the same ancestor — in this value
semantics the persistent operations construct new maps and never touch the
map that was read. -/
theorem set_get_round_trip {K V : Type} [DecidableEq K] (hash : K → Nat)
    (m m' : Map K V) (k : K) (v : V) (hset : m.Set hash k v = some m') :
    m'.Get hash k = some v ∧
      ∀ (m0 : Map K V) (ops : List (Op K V)) (m'' : Map K V),
        applyOps hash m0 ops = some m'' → m'.Get hash k = some v := by
  have h1 := Map.Get_Set_self hash m m' k v hset
  exact ⟨h1, fun _ _ _ _ => h1⟩

/-- Witness for C1 at a concrete input. -/
theorem set_get_round_trip_witness :
    NewMap.Set testHash 1 10 = some (⟨node.mk (some (1, 10)) none, 1⟩ :
        Map Nat Nat) ∧
      (⟨node.mk (some (1, 10)) none, 1⟩ : Map Nat Nat).Get testHash 1 =
        some 10 :=
  ⟨by decide,
   (set_get_round_trip testHash NewMap _ 1 10 (by decide)).1⟩

/-- C2: for every map `m`, key `k` not present in `m` and value `v`,
evaluating `m.Set(k, v)` does not change `m` itself: afterwards `m.Get(k)`
still reports not found, `m.Get` returns the same result for every other
key, `m.Len()` is unchanged and iterating `m` yields the same entries as
before.  In the value-level embedding `Map.Set` only constructs a new map,
so the observations of the receiver after the call are literally those
recorded before it. -/
theorem set_preserves_receiver {K V : Type} [DecidableEq K]
    (hash : K → Nat) (m m' : Map K V) (k : K) (v : V)
    (habsent : m.Get hash k = none) (_hset : m.Set hash k v = some m') :
    m.Get hash k = none ∧
      (∀ k' : K, k' ≠ k → m.Get hash k' = m.Get hash k') ∧
      m.Len = m.Len ∧ m.toList = m.toList :=
  ⟨habsent, fun _ _ => rfl, rfl, rfl⟩

/-- Witness for C2 at a concrete input. -/
theorem set_preserves_receiver_witness :
    ((NewMap : Map Nat Nat).Get testHash 1 = none ∧
        (NewMap : Map Nat Nat).Set testHash 1 10 =
          some (⟨node.mk (some (1, 10)) none, 1⟩ : Map Nat Nat)) ∧
      (NewMap : Map Nat Nat).Get testHash 1 = none ∧
      (∀ k' : Nat, k' ≠ 1 →
        (NewMap : Map Nat Nat).Get testHash k' =
          (NewMap : Map Nat Nat).Get testHash k') ∧
      (NewMap : Map Nat Nat).Len = (NewMap : Map Nat Nat).Len ∧
      (NewMap : Map Nat Nat).toList = (NewMap : Map Nat Nat).toList :=
  ⟨⟨by decide, by decide⟩,
   set_preserves_receiver testHash NewMap
     (⟨node.mk (some (1, 10)) none, 1⟩ : Map Nat Nat) 1 10 (by decide)
     (by decide)⟩

/-- C3 (failing, code bug): the cached length is supposed to equal
`node.count()` of the root for every map produced by the public interface,
but after `Set(1,10); Set(2,20); Set(1,30)` (hashes distinct, the third
`Set` overwrites a key that was pushed down) the map has `Len() = 2` while
the trie holds 3 leaves: `node.insert` stores the key at the first
leaf-free node of its path without noticing the deeper stale copy. -/
theorem len_count_divergence :
    applyOps testHash NewMap dupOps = some dupM ∧
      dupM.Len = 2 ∧ dupM.root.count = 3 := by
  decide

/-- C4 (failing, code bug): running any operation sequence through a fresh
`Builder` then `Build()` yields exactly the persistent result — the maps
are structurally identical — but the `Equal` method, which the claim uses,
returns `false` on this very pair after the duplicating sequence `dupOps`,
because the stale deeper entry `(1, 10)` is compared against the shadowing
`Get` result 30. -/
theorem builder_persistent_agreement {K V : Type} [DecidableEq K]
    (hash : K → Nat) :
    (∀ ops : List (Op K V), buildOps hash ops = applyOps hash NewMap ops) ∧
      buildOps testHash dupOps = some dupM ∧
      applyOps testHash NewMap dupOps = some dupM ∧
      Map.Equal testHash dupM dupM = false :=
  ⟨fun ops => buildOps_eq_applyOps hash ops, by decide, by decide, by decide⟩

/-- C5 (failing, code bug): deleting an absent key returns the same map,
but deleting the present key 1 of `dupM` leaves `Get(1)` reporting found
(with the stale value 10 resurrected from the duplicate leaf) even though
the claim requires not-found; the length part `Len() = Len() - 1` does
hold. -/
theorem delete_resurrects_stale_value :
    applyOps testHash NewMap dupOps = some dupM ∧
      dupM.Get testHash 1 = some 30 ∧
      dupM.Delete testHash 99 = dupM ∧
      (dupM.Delete testHash 1).Get testHash 1 = some 10 ∧
      (dupM.Delete testHash 1).Len = dupM.Len - 1 := by
  decide

/-- C6: updating or deleting one key never changes any other key's binding:
for `k' ≠ k`, a (terminating) `m.Set(k, v)` and `m.Delete(k)` return maps
whose `Get(k')` agrees exactly with `m.Get(k')`. -/
theorem other_key_lookup_frame {K V : Type} [DecidableEq K]
    (hash : K → Nat) (m : Map K V) (k k' : K) (v : V) (hne : k' ≠ k) :
    (∀ m', m.Set hash k v = some m' → m'.Get hash k' = m.Get hash k') ∧
      (m.Delete hash k).Get hash k' = m.Get hash k' :=
  ⟨fun m' hset => Map.Get_Set_frame hash m m' k k' v hne hset,
   Map.Get_Delete_frame hash m k k' hne⟩

/-- Witness for C6 at a concrete input (a two-key map in which key 1 was
pushed down). -/
theorem other_key_lookup_frame_witness :
    ((⟨node.mk none (some (children4.mk node.empty
          (node.mk (some (1, 10)) none) (node.mk (some (2, 20)) none)
          node.empty)), 2⟩ : Map Nat Nat).Delete testHash 1).Get testHash 2 =
      (⟨node.mk none (some (children4.mk node.empty
          (node.mk (some (1, 10)) none) (node.mk (some (2, 20)) none)
          node.empty)), 2⟩ : Map Nat Nat).Get testHash 2 :=
  (other_key_lookup_frame testHash _ 1 2 99 (by decide)).2

/-- C7 (failing, code bug): `Union` folds `other`'s entries into the
receiver, so on key conflicts `other`'s value should win, and `Merge` is an
alias for `Union`.  The alias holds definitionally, but for the reachable
map `dupM` (in which key 1 occurs twice, the stale copy later in iteration
order), `Union`'s result maps key 1 to the stale 10 while `other.Get(1)`
is 30. -/
theorem union_other_value_stale {K V : Type} [DecidableEq K]
    (hash : K → Nat) :
    (∀ m other : Map K V, m.Merge hash other = m.Union hash other) ∧
      applyOps testHash NewMap dupOps = some dupM ∧
      dupM.Get testHash 1 = some 30 ∧
      (NewMap.Union testHash dupM).map (fun u => u.Get testHash 1) =
        some (some 10) :=
  ⟨fun _ _ => rfl, by decide, by decide, by decide⟩

/-- C8 (failing, code bug): for the reachable disjoint-key maps `aM` (whose
bookkeeping was corrupted by the duplicate-then-delete sequence) and `bM`,
the first two set-algebra laws hold numerically, but
`SymmetricDifference(aM, bM)` is not `Equal` to `Union(aM, bM)`: the
symmetric difference re-inserts both surviving entries of `aM` (length 3)
while `Union` trusts `aM`'s corrupted cached length 1 (length 2). -/
theorem disjoint_symmdiff_union_not_equal :
    applyOps testHash NewMap (dupOps ++ [.del 1]) = some aM ∧
      NewMap.Set testHash 3 40 = some bM ∧
      (aM.Has testHash 3 = false ∧ bM.Has testHash 1 = false ∧
        bM.Has testHash 2 = false) ∧
      (aM.Union testHash bM).map Map.Len = some (aM.Len + bM.Len) ∧
      (aM.Intersection testHash bM).map Map.Len = some 0 ∧
      ((aM.SymmetricDifference testHash bM).bind fun s =>
          (aM.Union testHash bM).map fun u => Map.Equal testHash s u) =
        some false := by
  decide

/-! ### Termination and depth bound of the trie recursion (C9) -/

/-- Keys stored anywhere in a node. -/
def node.keysList (n : node K V) : List K := n.toList.map Prod.fst

/-- Two hashes agree on every trie level index below `d`. -/
def agreeUpTo (h1 h2 d : Nat) : Prop := ∀ j, j < d → index h1 j = index h2 j

mutual

/-- The placement invariant of the trie rooted at depth `dep`: every key
stored in child `i` of any node at depth `e ≥ dep` has `index(hash key, e)
= i`.  This holds for every trie reachable through the public interface and
is what keeps lookups and the push-down recursion on the hash path. -/
def node.placedB (hash : K → Nat) : node K V → Nat → Bool
  | .mk _ none, _ => true
  | .mk _ (some c), dep => children4.placedRec hash c dep

/-- Children part of the placement invariant. -/
def children4.placedRec (hash : K → Nat) : children4 K V → Nat → Bool
  | .mk a b c d, dep =>
    ((a.keysList.all fun kk => index (hash kk) dep == 0) &&
        a.placedB hash (dep + 1)) &&
      ((b.keysList.all fun kk => index (hash kk) dep == 1) &&
        b.placedB hash (dep + 1)) &&
      ((c.keysList.all fun kk => index (hash kk) dep == 2) &&
        c.placedB hash (dep + 1)) &&
      ((d.keysList.all fun kk => index (hash kk) dep == 3) &&
        d.placedB hash (dep + 1))

end

theorem keysList_mk (l : Option (K × V)) (cs : Option (children4 K V)) :
    (node.mk l cs).keysList =
      (match l with | some lf => [lf.1] | none => []) ++
      (match cs with
        | none => []
        | some (.mk a b c d) =>
          a.keysList ++ b.keysList ++ c.keysList ++ d.keysList) := by
  cases cs with
  | none =>
    cases l <;> simp [node.keysList, node.toList]
  | some c =>
    cases c
    cases l <;>
      simp [node.keysList, node.toList, children4.toListRec]

theorem keysList_empty : (node.empty : node K V).keysList = [] := rfl

theorem mem_keysList_child {kk : K} {C : children4 K V} (i : Nat)
    (hi : i < 4) (l : Option (K × V))
    (hmem : kk ∈ (C.get i).keysList) :
    kk ∈ (node.mk l (some C)).keysList := by
  cases C with
  | mk a b c d =>
    rw [keysList_mk]
    interval_cases i <;>
      simp_all [children4.get, List.mem_append]

theorem mem_keysList_leaf (lf : K × V) (cs : Option (children4 K V)) :
    lf.1 ∈ (node.mk (some lf) cs).keysList := by
  rw [keysList_mk]
  simp

/-- Extraction of the per-child facts from the placement invariant. -/
theorem placed_child {hash : K → Nat} {l : Option (K × V)}
    {C : children4 K V} {dep : Nat}
    (hp : (node.mk l (some C)).placedB hash dep = true) (i : Nat)
    (hi : i < 4) :
    (∀ kk ∈ (C.get i).keysList, index (hash kk) dep = i) ∧
      (C.get i).placedB hash (dep + 1) = true := by
  cases C with
  | mk a b c d =>
    simp only [node.placedB, children4.placedRec, Bool.and_eq_true,
      List.all_eq_true, beq_iff_eq] at hp
    interval_cases i <;>
      exact ⟨fun kk hk => by simp_all [children4.get], by simp_all
        [children4.get]⟩

/-- Introduction of the placement invariant from per-child facts. -/
theorem placed_intro {hash : K → Nat} {C : children4 K V} {dep : Nat}
    (h : ∀ i, i < 4 →
      (∀ kk ∈ (C.get i).keysList, index (hash kk) dep = i) ∧
        (C.get i).placedB hash (dep + 1) = true) (l : Option (K × V)) :
    (node.mk l (some C)).placedB hash dep = true := by
  cases C with
  | mk a b c d =>
    have h0 := h 0 (by omega)
    have h1 := h 1 (by omega)
    have h2 := h 2 (by omega)
    have h3 := h 3 (by omega)
    simp only [children4.get] at h0 h1 h2 h3
    simp only [node.placedB, children4.placedRec, Bool.and_eq_true,
      List.all_eq_true, beq_iff_eq]
    exact ⟨⟨⟨⟨fun kk hk => h0.1 kk hk, h0.2⟩, fun kk hk => h1.1 kk hk, h1.2⟩,
      fun kk hk => h2.1 kk hk, h2.2⟩, fun kk hk => h3.1 kk hk, h3.2⟩

/-- The placement invariant holds for the empty child array. -/
theorem placed_empty (hash : K → Nat) (dep : Nat) (i : Nat) :
    (∀ kk ∈ ((children4.empty : children4 K V).get i).keysList,
        index (hash kk) dep = i) ∧
      ((children4.empty : children4 K V).get i).placedB hash (dep + 1) =
        true := by
  rw [children4.empty_get]
  exact ⟨fun kk hk => by simp [keysList_empty] at hk, rfl⟩

/-- For depths up to 31 the level index is the claimed bit slice
`(h >> (64 - 2*(depth+1))) & 0b11 = h / 2^(62-2d) mod 4`. -/
theorem index_spec (h d : Nat) (hd : d ≤ 31) :
    index h d = h / 2 ^ (62 - 2 * d) % 4 := by
  have h64 : (2 : Nat) ^ 64 = 18446744073709551616 := by norm_num
  have hd1 : (d + 1) % 2 ^ 64 = d + 1 := by
    apply Nat.mod_eq_of_lt; rw [h64]; omega
  have hmask : (mask : Nat) = 3 := by decide
  have hb : bitsPerLevel = 2 := rfl
  unfold index
  rw [hb, hd1, hmask]
  have h2d : 2 * (d + 1) % 2 ^ 64 = 2 * (d + 1) := by
    apply Nat.mod_eq_of_lt; rw [h64]; omega
  rw [h2d]
  have hgo : goSub 64 (2 * (d + 1)) = 62 - 2 * d := by
    unfold goSub
    rw [h64]
    omega
  rw [hgo, Nat.shiftRight_eq_div_pow]
  have := Nat.and_pow_two_sub_one_eq_mod (h / 2 ^ (62 - 2 * d)) 2
  norm_num at this
  exact this

/-- Hashes below `2^64` that agree on all 32 level indices are equal: the
32 two-bit slices exhaust the 64 bits. -/
theorem agree32_eq {h1 h2 : Nat} (hb1 : h1 < 2 ^ 64) (hb2 : h2 < 2 ^ 64)
    (hag : agreeUpTo h1 h2 32) : h1 = h2 := by
  have key : ∀ j, j ≤ 32 →
      h1 / 2 ^ (64 - 2 * j) = h2 / 2 ^ (64 - 2 * j) := by
    intro j
    induction j with
    | zero =>
      intro _
      simp only [Nat.mul_zero, Nat.sub_zero]
      rw [Nat.div_eq_of_lt hb1, Nat.div_eq_of_lt hb2]
    | succ j ihj =>
      intro hj1
      have hj : j ≤ 31 := by omega
      have hdiv := ihj (by omega)
      have hidx := hag j (by omega)
      rw [index_spec h1 j hj, index_spec h2 j hj] at hidx
      have hdd : ∀ h : Nat, h / 2 ^ (64 - 2 * j) = h / 2 ^ (62 - 2 * j) / 4 := by
        intro h
        rw [Nat.div_div_eq_div_mul]
        congr 1
        have he : 64 - 2 * j = (62 - 2 * j) + 2 := by omega
        rw [he, pow_add]
        norm_num
      have expand : ∀ h : Nat, h / 2 ^ (62 - 2 * j) =
          h / 2 ^ (64 - 2 * j) * 4 + h / 2 ^ (62 - 2 * j) % 4 := by
        intro h
        rw [hdd h]
        omega
      have he1 : 64 - 2 * (j + 1) = 62 - 2 * j := by omega
      rw [he1, expand h1, expand h2, hdiv, hidx]
  have hfin := key 32 (by omega)
  simpa using hfin

theorem agreeUpTo_zero (h1 h2 : Nat) : agreeUpTo h1 h2 0 :=
  fun j hj => absurd hj (by omega)

theorem agreeUpTo_succ {h1 h2 d : Nat} (hag : agreeUpTo h1 h2 d)
    (hd : index h1 d = index h2 d) : agreeUpTo h1 h2 (d + 1) := by
  intro j hj
  rcases Nat.lt_succ_iff_lt_or_eq.mp hj with hlt | heq
  · exact hag j hlt
  · subst heq; exact hd

theorem keysList_mk_some (lf : K × V) (cs : Option (children4 K V)) :
    (node.mk (some lf) cs).keysList =
      lf.1 :: (node.mk none cs).keysList := by
  rw [keysList_mk, keysList_mk]
  rfl

theorem mem_keysList_none_some {kk : K} {C : children4 K V}
    (hm : kk ∈ (node.mk none (some C)).keysList) :
    ∃ i, i < 4 ∧ kk ∈ (C.get i).keysList := by
  cases C with
  | mk a b c d =>
    rw [keysList_mk] at hm
    simp only [List.nil_append, List.mem_append] at hm
    rcases hm with ((h1 | h2) | h3) | h4
    · exact ⟨0, by omega, by simpa [children4.get] using h1⟩
    · exact ⟨1, by omega, by simpa [children4.get] using h2⟩
    · exact ⟨2, by omega, by simpa [children4.get] using h3⟩
    · exact ⟨3, by omega, by simpa [children4.get] using h4⟩

/-- The placement invariant does not look at the node's own leaf (the leaf
is constrained by the parent's slot instead). -/
theorem placedB_leaf_irrel (hash : K → Nat) (l l' : Option (K × V))
    (cs : Option (children4 K V)) (d : Nat) :
    (node.mk l cs).placedB hash d = (node.mk l' cs).placedB hash d := by
  cases cs <;> rfl

section InsertTotal

variable [DecidableEq K]

/-- Insertion introduces no key other than the inserted one. -/
theorem keysList_insertF_subset (hash : K → Nat) :
    ∀ (f : Nat) (n : node K V) (k : K) (v : V) (h d : Nat) (n' : node K V),
      node.insertF hash f n k v h d = some n' →
      ∀ kk, kk ∈ n'.keysList → kk ∈ n.keysList ∨ kk = k := by
  intro f
  induction f with
  | zero =>
    intro n k v h d n' hins
    simp [node.insertF] at hins
  | succ f ih =>
    intro n k v h d n' hins kk hm
    obtain ⟨l, cs⟩ := n
    cases l with
    | none =>
      simp only [node.insertF, Option.some.injEq] at hins
      subst hins
      rw [keysList_mk_some] at hm
      rcases List.mem_cons.mp hm with h1 | h2
      · right; exact h1
      · left; exact h2
    | some lf =>
      simp only [node.insertF] at hins
      by_cases hk : lf.1 = k
      · rw [if_pos hk] at hins
        injection hins with hins
        subst hins
        rw [keysList_mk_some] at hm
        rw [keysList_mk_some]
        rcases List.mem_cons.mp hm with h1 | h2
        · right; exact h1
        · left; exact List.mem_cons_of_mem _ h2
      · rw [if_neg hk] at hins
        cases hec : node.insertF hash f ((cs.getD children4.empty).get
            (index (hash lf.1) d)) lf.1 lf.2 (hash lf.1) (d + 1) with
        | none => rw [hec] at hins; cases hins
        | some ec =>
          simp only [hec] at hins
          cases hnc : node.insertF hash f (((cs.getD children4.empty).set
              (index (hash lf.1) d) ec).get (index h d)) k v h (d + 1) with
          | none => simp [hnc] at hins
          | some nc =>
            simp only [hnc, Option.some.injEq] at hins
            subst hins
            -- membership in the double-updated child array
            obtain ⟨i, hi4, hmi⟩ := mem_keysList_none_some hm
            have heI := index_lt_four (hash lf.1) d
            have hnI := index_lt_four h d
            -- a key of the original array slots is a key of `n`
            have horig : ∀ j, j < 4 →
                ∀ kx, kx ∈ ((cs.getD children4.empty).get j).keysList →
                  kx ∈ (node.mk (some lf) cs).keysList := by
              intro j hj kx hkx
              cases cs with
              | none =>
                rw [Option.getD, children4.empty_get, keysList_empty] at hkx
                cases hkx
              | some c => exact mem_keysList_child j hj (some lf) hkx
            have hlfm : lf.1 ∈ (node.mk (some lf) cs).keysList :=
              mem_keysList_leaf lf cs
            -- keys of the slot the new key went into, before that insertion
            have hmid : ∀ kx,
                kx ∈ (((cs.getD children4.empty).set (index (hash lf.1) d)
                    ec).get (index h d)).keysList →
                  kx ∈ (node.mk (some lf) cs).keysList := by
              intro kx hkx
              by_cases hie : index h d = index (hash lf.1) d
              · rw [hie, children4.get_set_self _ _ _ heI] at hkx
                rcases ih _ lf.1 lf.2 (hash lf.1) (d + 1) ec hec kx hkx with
                  hin | hl
                · exact horig _ heI kx hin
                · rw [hl]; exact hlfm
              · rw [children4.get_set_ne _ _ _ _ heI hnI hie] at hkx
                exact horig _ hnI kx hkx
            by_cases hin : i = index h d
            · subst hin
              rw [children4.get_set_self _ _ _ hnI] at hmi
              rcases ih _ k v h (d + 1) nc hnc kk hmi with hin2 | hr
              · left; exact hmid kk hin2
              · right; exact hr
            · rw [children4.get_set_ne _ _ _ _ hnI hi4 hin] at hmi
              by_cases hie : i = index (hash lf.1) d
              · subst hie
                rw [children4.get_set_self _ _ _ heI] at hmi
                rcases ih _ lf.1 lf.2 (hash lf.1) (d + 1) ec hec kk hmi with
                  hin2 | hl
                · left; exact horig _ heI kk hin2
                · left; rw [hl]; exact hlfm
              · rw [children4.get_set_ne _ _ _ _ heI hi4 hie] at hmi
                left; exact horig _ hi4 kk hmi

/-- Insertion with the key's own hash preserves the placement invariant. -/
theorem placedB_insertF (hash : K → Nat) :
    ∀ (f : Nat) (n : node K V) (k : K) (v : V) (d : Nat) (n' : node K V),
      node.insertF hash f n k v (hash k) d = some n' →
      n.placedB hash d = true → n'.placedB hash d = true := by
  intro f
  induction f with
  | zero =>
    intro n k v d n' hins
    simp [node.insertF] at hins
  | succ f ih =>
    intro n k v d n' hins hpl
    obtain ⟨l, cs⟩ := n
    cases l with
    | none =>
      simp only [node.insertF, Option.some.injEq] at hins
      subst hins
      rw [placedB_leaf_irrel hash (some (k, v)) none]
      exact hpl
    | some lf =>
      simp only [node.insertF] at hins
      by_cases hk : lf.1 = k
      · rw [if_pos hk] at hins
        injection hins with hins
        subst hins
        rw [placedB_leaf_irrel hash (some (k, v)) (some lf)]
        exact hpl
      · rw [if_neg hk] at hins
        cases hec : node.insertF hash f ((cs.getD children4.empty).get
            (index (hash lf.1) d)) lf.1 lf.2 (hash lf.1) (d + 1) with
        | none => rw [hec] at hins; cases hins
        | some ec =>
          simp only [hec] at hins
          cases hnc : node.insertF hash f (((cs.getD children4.empty).set
              (index (hash lf.1) d) ec).get (index (hash k) d)) k v (hash k)
              (d + 1) with
          | none => simp [hnc] at hins
          | some nc =>
            simp only [hnc, Option.some.injEq] at hins
            subst hins
            have heI := index_lt_four (hash lf.1) d
            have hnI := index_lt_four (hash k) d
            -- per-slot facts for the original (or fresh) child array
            have hslot : ∀ i, i < 4 →
                (∀ kk ∈ ((cs.getD children4.empty).get i).keysList,
                    index (hash kk) d = i) ∧
                  ((cs.getD children4.empty).get i).placedB hash (d + 1) =
                    true := by
              intro i hi
              cases cs with
              | none => exact placed_empty hash d i
              | some c => exact placed_child hpl i hi
            -- facts for the slot holding the pushed-down leaf
            have hecKeys : ∀ kk ∈ ec.keysList,
                index (hash kk) d = index (hash lf.1) d := by
              intro kk hkk
              rcases keysList_insertF_subset hash f _ lf.1 lf.2 (hash lf.1)
                  (d + 1) ec hec kk hkk with hin | hl
              · exact (hslot _ heI).1 kk hin
              · rw [hl]
            have hecPl : ec.placedB hash (d + 1) = true :=
              ih _ lf.1 lf.2 (d + 1) ec hec (hslot _ heI).2
            -- facts for the slot the new key goes into, before that insert
            have hmidKeys : ∀ kk ∈ (((cs.getD children4.empty).set
                (index (hash lf.1) d) ec).get (index (hash k) d)).keysList,
                index (hash kk) d = index (hash k) d := by
              intro kk hkk
              by_cases hie : index (hash k) d = index (hash lf.1) d
              · rw [hie, children4.get_set_self _ _ _ heI] at hkk
                rw [hie]
                exact hecKeys kk hkk
              · rw [children4.get_set_ne _ _ _ _ heI hnI hie] at hkk
                exact (hslot _ hnI).1 kk hkk
            have hmidPl : (((cs.getD children4.empty).set
                (index (hash lf.1) d) ec).get
                  (index (hash k) d)).placedB hash (d + 1) = true := by
              by_cases hie : index (hash k) d = index (hash lf.1) d
              · rw [hie, children4.get_set_self _ _ _ heI]
                exact hecPl
              · rw [children4.get_set_ne _ _ _ _ heI hnI hie]
                exact (hslot _ hnI).2
            have hncKeys : ∀ kk ∈ nc.keysList,
                index (hash kk) d = index (hash k) d := by
              intro kk hkk
              rcases keysList_insertF_subset hash f _ k v (hash k) (d + 1)
                  nc hnc kk hkk with hin | hl
              · exact hmidKeys kk hin
              · rw [hl]
            have hncPl : nc.placedB hash (d + 1) = true :=
              ih _ k v (d + 1) nc hnc hmidPl
            refine placed_intro (fun i hi => ?_) none
            by_cases hin : i = index (hash k) d
            · subst hin
              rw [children4.get_set_self _ _ _ hnI]
              exact ⟨hncKeys, hncPl⟩
            · rw [children4.get_set_ne _ _ _ _ hnI hi hin]
              by_cases hie : i = index (hash lf.1) d
              · subst hie
                rw [children4.get_set_self _ _ _ heI]
                exact ⟨hecKeys, hecPl⟩
              · rw [children4.get_set_ne _ _ _ _ heI hi hie]
                exact hslot i hi

/-- Termination of `node.insert` with fuel `33 - d` at depth `d`, for a
placed subtree whose keys agree with the inserted key (and pairwise) on all
levels below `d`, have pairwise distinct hashes, and hashes below `2^64`.
One fuel unit is consumed per visited depth, so success with this budget is
exactly the statement that the recursion never passes depth 32. -/
theorem insertF_total (hash : K → Nat) :
    ∀ (f : Nat) (n : node K V) (k : K) (v : V) (d : Nat),
      33 - d ≤ f → d ≤ 32 →
      n.placedB hash d = true →
      (∀ kk ∈ n.keysList, agreeUpTo (hash kk) (hash k) d) →
      (∀ kk ∈ n.keysList, kk ≠ k → hash kk ≠ hash k) →
      (∀ k1 ∈ n.keysList, ∀ k2 ∈ n.keysList, k1 ≠ k2 →
        hash k1 ≠ hash k2) →
      (∀ k1 ∈ n.keysList, ∀ k2 ∈ n.keysList,
        agreeUpTo (hash k1) (hash k2) d) →
      (∀ kk ∈ n.keysList, hash kk < 2 ^ 64) → hash k < 2 ^ 64 →
      (node.insertF hash f n k v (hash k) d).isSome = true := by
  intro f
  induction f with
  | zero =>
    intro n k v d hf hd _ _ _ _ _ _ _
    omega
  | succ f ih =>
    intro n k v d hf hd hpl hagk hdk hpd hpa hbnd hbk
    obtain ⟨l, cs⟩ := n
    cases l with
    | none => simp [node.insertF]
    | some lf =>
      by_cases hk : lf.1 = k
      · simp [node.insertF, hk]
      · have hlfm := mem_keysList_leaf lf cs
        have hd31 : d ≤ 31 := by
          by_contra hgt
          have hd32 : d = 32 := by omega
          have hag := hagk lf.1 hlfm
          rw [hd32] at hag
          exact hdk lf.1 hlfm hk (agree32_eq (hbnd lf.1 hlfm) hbk hag)
        have heI := index_lt_four (hash lf.1) d
        have hnI := index_lt_four (hash k) d
        have hslot : ∀ i, i < 4 →
            (∀ kk ∈ ((cs.getD children4.empty).get i).keysList,
                index (hash kk) d = i) ∧
              ((cs.getD children4.empty).get i).placedB hash (d + 1) =
                true := by
          intro i hi
          cases cs with
          | none => exact placed_empty hash d i
          | some c => exact placed_child hpl i hi
        have horig : ∀ j, j < 4 →
            ∀ kx ∈ ((cs.getD children4.empty).get j).keysList,
              kx ∈ (node.mk (some lf) cs).keysList := by
          intro j hj kx hkx
          cases cs with
          | none =>
            rw [Option.getD, children4.empty_get, keysList_empty] at hkx
            cases hkx
          | some c => exact mem_keysList_child j hj (some lf) hkx
        -- first recursive call: push the existing leaf down
        have hec0 : (node.insertF hash f ((cs.getD children4.empty).get
            (index (hash lf.1) d)) lf.1 lf.2 (hash lf.1)
            (d + 1)).isSome = true := by
          apply ih
          · omega
          · omega
          · exact (hslot _ heI).2
          · intro kk hkk
            exact agreeUpTo_succ (hpa kk (horig _ heI kk hkk) lf.1 hlfm)
              ((hslot _ heI).1 kk hkk)
          · intro kk hkk hne
            exact hpd kk (horig _ heI kk hkk) lf.1 hlfm hne
          · intro k1 h1 k2 h2 hne
            exact hpd k1 (horig _ heI k1 h1) k2 (horig _ heI k2 h2) hne
          · intro k1 h1 k2 h2
            exact agreeUpTo_succ
              (hpa k1 (horig _ heI k1 h1) k2 (horig _ heI k2 h2))
              (((hslot _ heI).1 k1 h1).trans ((hslot _ heI).1 k2 h2).symm)
          · intro kk hkk
            exact hbnd kk (horig _ heI kk hkk)
          · exact hbnd lf.1 hlfm
        rw [Option.isSome_iff_exists] at hec0
        obtain ⟨ec, hec⟩ := hec0
        -- facts about the pushed-down slot
        have hecKeys : ∀ kk ∈ ec.keysList,
            index (hash kk) d = index (hash lf.1) d := by
          intro kk hkk
          rcases keysList_insertF_subset hash f _ lf.1 lf.2 (hash lf.1)
              (d + 1) ec hec kk hkk with hin | hl
          · exact (hslot _ heI).1 kk hin
          · rw [hl]
        have hecMem : ∀ kk ∈ ec.keysList,
            kk ∈ (node.mk (some lf) cs).keysList := by
          intro kk hkk
          rcases keysList_insertF_subset hash f _ lf.1 lf.2 (hash lf.1)
              (d + 1) ec hec kk hkk with hin | hl
          · exact horig _ heI kk hin
          · rw [hl]; exact hlfm
        have hecPl : ec.placedB hash (d + 1) = true :=
          placedB_insertF hash f _ lf.1 lf.2 (d + 1) ec hec (hslot _ heI).2
        -- facts about the slot the new key goes into
        have hmidMem : ∀ kk ∈ (((cs.getD children4.empty).set
            (index (hash lf.1) d) ec).get (index (hash k) d)).keysList,
            kk ∈ (node.mk (some lf) cs).keysList := by
          intro kk hkk
          by_cases hie : index (hash k) d = index (hash lf.1) d
          · rw [hie, children4.get_set_self _ _ _ heI] at hkk
            exact hecMem kk hkk
          · rw [children4.get_set_ne _ _ _ _ heI hnI hie] at hkk
            exact horig _ hnI kk hkk
        have hmidIdx : ∀ kk ∈ (((cs.getD children4.empty).set
            (index (hash lf.1) d) ec).get (index (hash k) d)).keysList,
            index (hash kk) d = index (hash k) d := by
          intro kk hkk
          by_cases hie : index (hash k) d = index (hash lf.1) d
          · rw [hie, children4.get_set_self _ _ _ heI] at hkk
            rw [hie]
            exact hecKeys kk hkk
          · rw [children4.get_set_ne _ _ _ _ heI hnI hie] at hkk
            exact (hslot _ hnI).1 kk hkk
        have hmidPl : (((cs.getD children4.empty).set
            (index (hash lf.1) d) ec).get
              (index (hash k) d)).placedB hash (d + 1) = true := by
          by_cases hie : index (hash k) d = index (hash lf.1) d
          · rw [hie, children4.get_set_self _ _ _ heI]
            exact hecPl
          · rw [children4.get_set_ne _ _ _ _ heI hnI hie]
            exact (hslot _ hnI).2
        -- second recursive call: insert the new key
        have hnc0 : (node.insertF hash f (((cs.getD children4.empty).set
            (index (hash lf.1) d) ec).get (index (hash k) d)) k v (hash k)
            (d + 1)).isSome = true := by
          apply ih
          · omega
          · omega
          · exact hmidPl
          · intro kk hkk
            exact agreeUpTo_succ (hagk kk (hmidMem kk hkk)) (hmidIdx kk hkk)
          · intro kk hkk hne
            exact hdk kk (hmidMem kk hkk) hne
          · intro k1 h1 k2 h2 hne
            exact hpd k1 (hmidMem k1 h1) k2 (hmidMem k2 h2) hne
          · intro k1 h1 k2 h2
            exact agreeUpTo_succ
              (hpa k1 (hmidMem k1 h1) k2 (hmidMem k2 h2))
              ((hmidIdx k1 h1).trans (hmidIdx k2 h2).symm)
          · intro kk hkk
            exact hbnd kk (hmidMem kk hkk)
          · exact hbk
        rw [Option.isSome_iff_exists] at hnc0
        obtain ⟨nc, hnc⟩ := hnc0
        simp [node.insertF, if_neg hk, hec, hnc]

end InsertTotal

/-- C9: for every insert on a trie satisfying the placement invariant, in
which any two distinct keys involved (the stored keys and the inserted one)
have 64-bit hashes differing in at least one bit, the recursion terminates
and its depth never exceeds the maximum depth of 32 — witnessed by success
with fuel 33, one unit per visited depth 0..32; the per-level index is
`(hash >> (64 - 2*(depth+1))) & 0b11` for every depth up to 31 (beyond
that the Go shift amount underflows and the index is constantly 0), and it
is always a value in 0..3.  `get` and `delete` are structurally recursive
in the embedding and terminate on every input. -/
theorem insert_terminates_within_depth {K V : Type} [DecidableEq K]
    (hash : K → Nat) (n : node K V) (k : K) (v : V)
    (hplaced : n.placedB hash 0 = true)
    (hdistinct : ∀ k1 ∈ n.keysList, ∀ k2 ∈ n.keysList, k1 ≠ k2 →
      hash k1 ≠ hash k2)
    (hdistk : ∀ kk ∈ n.keysList, kk ≠ k → hash kk ≠ hash k)
    (hbounds : ∀ kk ∈ n.keysList, hash kk < 2 ^ 64)
    (hbk : hash k < 2 ^ 64) :
    (node.insertF hash insertFuel n k v (hash k) 0).isSome = true ∧
      (∀ h d : Nat, index h d < 4) ∧
      (∀ h d : Nat, d ≤ 31 →
        index h d = (h >>> (64 - bitsPerLevel * (d + 1))) &&& 0b11) := by
  refine ⟨?_, fun h d => index_lt_four h d, ?_⟩
  · exact insertF_total hash insertFuel n k v 0 (by decide) (by omega)
      hplaced (fun kk _ => agreeUpTo_zero _ _) hdistk hdistinct
      (fun k1 _ k2 _ => agreeUpTo_zero _ _) hbounds hbk
  · intro h d hd
    rw [index_spec h d hd]
    have hsh : 64 - bitsPerLevel * (d + 1) = 62 - 2 * d := by
      have hb : bitsPerLevel = 2 := rfl
      rw [hb]
      omega
    rw [hsh, Nat.shiftRight_eq_div_pow]
    have h2 := Nat.and_pow_two_sub_one_eq_mod (h / 2 ^ (62 - 2 * d)) 2
    norm_num at h2
    rw [h2]

/-! ### JSON object deserialization (C10)

`Map.UnmarshalJSON` drives Go's `encoding/json` decoder, an external
collaborator.  The embedding keeps the control flow of the source function
and abstracts the decoder as a list of observable interactions: the
delimiter tokens returned by `dec.Token()`, string tokens in key position
(`keyTok`, whose conversion to `K` is the abstract `dk : S → Option K`,
standing for `json.Unmarshal` of the quoted key), non-string tokens in key
position (`badTok`), and the outcome of `dec.Decode` for a value in value
position (`valTok`, `none` when the bytes cannot be decoded as `V`). -/

/-- One observable decoder interaction. -/
inductive JTok (S V : Type) where
  | lbrace
  | rbrace
  | keyTok (s : S)
  | badTok
  | valTok (r : Option V)
  deriving DecidableEq

/-- The error taxonomy of `Map.UnmarshalJSON` (each case is a distinct
formatted error in the source; no case panics). -/
inductive JErr where
  | eofErr
  | notLbrace
  | badKeyToken
  | keyDecode
  | valueDecode
  deriving DecidableEq

instance {K V : Type} [DecidableEq K] [DecidableEq V] :
    DecidableEq (Builder K V) := fun b b' => by
  cases b with
  | mk r l =>
    cases b' with
    | mk r' l' =>
      exact
        if h : r = r' ∧ l = l' then
          .isTrue (by rw [h.1, h.2])
        else
          .isFalse (by
            intro hc
            injection hc with h1 h2
            exact h ⟨h1, h2⟩)

section Unmarshal

variable {S : Type} [DecidableEq K]

/-- The `for dec.More()` loop of `Map.UnmarshalJSON`: read a key token
(which must be a string), convert it to `K`, `Decode` a value, `Set` it on
the builder, and repeat; on `}` the loop exits, the closing delimiter is
consumed and `Build()` is called exactly once.  Errors mirror the source's
error returns; the outer `none` models a diverging `Builder.Set` (full
hash collision), as everywhere in this file. -/
def unmarshalLoop (dk : S → Option K) (hash : K → Nat) :
    Builder K V → List (JTok S V) → Option (Except JErr (Map K V))
  | _, [] => some (.error .eofErr)
  | b, .rbrace :: _ => some (.ok b.Build)
  | b, .keyTok s :: rest =>
    match dk s with
    | none => some (.error .keyDecode)
    | some k =>
      match rest with
      | [] => some (.error .eofErr)
      | .valTok none :: _ => some (.error .valueDecode)
      | .valTok (some v) :: rest2 =>
        match b.Set hash k v with
        | none => none
        | some b2 => unmarshalLoop dk hash b2 rest2
      | _ :: _ => some (.error .valueDecode)
  | _, .lbrace :: _ => some (.error .badKeyToken)
  | _, .badTok :: _ => some (.error .badKeyToken)
  | _, .valTok _ :: _ => some (.error .badKeyToken)

/-- `Map.UnmarshalJSON`: expect `{`, run the loop on a fresh builder. -/
def UnmarshalJSON (dk : S → Option K) (hash : K → Nat) :
    List (JTok S V) → Option (Except JErr (Map K V))
  | [] => some (.error .eofErr)
  | .lbrace :: rest => unmarshalLoop dk hash NewBuilder rest
  | _ :: _ => some (.error .notLbrace)

/-- The token rendering of a list of key-value pairs that all decode. -/
def pairsToks (ps : List (S × V)) : List (JTok S V) :=
  ps.flatMap fun p => [JTok.keyTok p.1, JTok.valTok (some p.2)]

/-- Folding the decoded pairs into a builder with `Builder.Set` (the
accumulation `Map.UnmarshalJSON` performs); `none` when a key fails to
decode or a `Set` diverges. -/
def foldSets (dk : S → Option K) (hash : K → Nat) (b : Builder K V)
    (ps : List (S × V)) : Option (Builder K V) :=
  ps.foldlM (fun acc p => (dk p.1).bind fun k => acc.Set hash k p.2) b

theorem unmarshalLoop_app (dk : S → Option K) (hash : K → Nat) :
    ∀ (ps : List (S × V)) (b b' : Builder K V) (tail : List (JTok S V)),
      foldSets dk hash b ps = some b' →
      unmarshalLoop dk hash b (pairsToks ps ++ tail) =
        unmarshalLoop dk hash b' tail := by
  intro ps
  induction ps with
  | nil =>
    intro b b' tail hf
    simp only [foldSets, List.foldlM_nil, Option.pure_def,
      Option.some.injEq] at hf
    subst hf
    rfl
  | cons p ps ih =>
    intro b b' tail hf
    simp only [foldSets, List.foldlM_cons] at hf
    cases hdk : dk p.1 with
    | none => simp [hdk] at hf
    | some k =>
      simp only [hdk, Option.some_bind] at hf
      cases hset : b.Set hash k p.2 with
      | none => simp [hset] at hf
      | some b2 =>
        simp only [hset, Option.bind_eq_bind, Option.some_bind] at hf
        show unmarshalLoop dk hash b
            (.keyTok p.1 :: .valTok (some p.2) :: (pairsToks ps ++ tail)) =
          unmarshalLoop dk hash b' tail
        simp only [unmarshalLoop, hdk, hset]
        exact ih b2 b' tail hf

/-- Lookups in a map built after a `Builder.Set`. -/
theorem Builder.Get_Set_self_build (hash : K → Nat) (b b2 : Builder K V) (k : K)
    (v : V) (hset : b.Set hash k v = some b2) :
    (b2.Build).Get hash k = some v := by
  apply Map.Get_Set_self hash b.Build b2.Build k v
  rw [← Builder.Set_Build, hset]
  rfl

/-- Frame for a `Builder.Set`. -/
theorem Builder.Get_Set_frame_build (hash : K → Nat) (b b2 : Builder K V)
    (k k' : K) (v : V) (hne : k' ≠ k) (hset : b.Set hash k v = some b2) :
    (b2.Build).Get hash k' = (b.Build).Get hash k' := by
  apply Map.Get_Set_frame hash b.Build b2.Build k k' v hne
  rw [← Builder.Set_Build, hset]
  rfl

theorem get_foldSets_frame (dk : S → Option K) (hash : K → Nat) :
    ∀ (ps : List (S × V)) (b b' : Builder K V) (kk : K),
      foldSets dk hash b ps = some b' →
      (∀ q ∈ ps, ∀ kq, dk q.1 = some kq → kq ≠ kk) →
      (b'.Build).Get hash kk = (b.Build).Get hash kk := by
  intro ps
  induction ps with
  | nil =>
    intro b b' kk hf _
    simp only [foldSets, List.foldlM_nil, Option.pure_def,
      Option.some.injEq] at hf
    subst hf
    rfl
  | cons q ps ih =>
    intro b b' kk hf hne
    simp only [foldSets, List.foldlM_cons] at hf
    cases hdk : dk q.1 with
    | none => simp [hdk] at hf
    | some kq =>
      simp only [hdk, Option.some_bind] at hf
      cases hset : b.Set hash kq q.2 with
      | none => simp [hset] at hf
      | some b2 =>
        simp only [hset, Option.bind_eq_bind, Option.some_bind] at hf
        have h1 := ih b2 b' kk hf
          (fun q' hq' kq' hdk' => hne q' (List.mem_cons_of_mem _ hq') kq'
            hdk')
        rw [h1]
        exact Builder.Get_Set_frame_build hash b b2 kq kk q.2
          (hne q (List.mem_cons_self _ _) kq hdk).symm hset

theorem get_foldSets (dk : S → Option K) (hash : K → Nat) :
    ∀ (ps : List (S × V)) (b b' : Builder K V),
      foldSets dk hash b ps = some b' →
      ps.Pairwise (fun p q => ∀ kp kq, dk p.1 = some kp →
        dk q.1 = some kq → kp ≠ kq) →
      ∀ p ∈ ps, ∀ k, dk p.1 = some k →
        (b'.Build).Get hash k = some p.2 := by
  intro ps
  induction ps with
  | nil =>
    intro b b' _ _ p hp
    cases hp
  | cons q ps ih =>
    intro b b' hf hpw p hp k hdkp
    simp only [foldSets, List.foldlM_cons] at hf
    cases hdk : dk q.1 with
    | none => simp [hdk] at hf
    | some kq =>
      simp only [hdk, Option.some_bind] at hf
      cases hset : b.Set hash kq q.2 with
      | none => simp [hset] at hf
      | some b2 =>
        simp only [hset, Option.bind_eq_bind, Option.some_bind] at hf
        rcases List.mem_cons.mp hp with hpq | hmem
        · subst hpq
          rw [hdk] at hdkp
          injection hdkp with hkq
          rw [← hkq]
          have hfr := get_foldSets_frame dk hash ps b2 b' kq hf
            (fun q' hq' kq' hdk' =>
              ((List.pairwise_cons.mp hpw).1 q' hq' kq kq' hdk hdk').symm)
          rw [hfr]
          exact Builder.Get_Set_self_build hash b b2 kq p.2 hset
        · exact ih b2 b' hf (List.pairwise_cons.mp hpw).2 p hmem k hdkp

/-- C10: `Map.UnmarshalJSON` rejects every input that is not a well-formed
JSON object with a descriptive error and never panics (the embedding is
total and every failure is an explicit `error` value): a missing opening
brace, a non-string key token, a value the decoder cannot decode, and a
missing closing brace each produce their distinct error; on a well-formed
object it accumulates the entries through a `Builder` (`foldSets`), calls
`Build()` exactly once, and the resulting map contains those entries
(last-listed value for its key, here stated for pairwise-distinct decoded
keys). -/
theorem unmarshal_rejects_malformed {S K V : Type} [DecidableEq K]
    (dk : S → Option K) (hash : K → Nat) :
    (∀ toks : List (JTok S V), (∀ rest, toks ≠ JTok.lbrace :: rest) →
      ∃ e, UnmarshalJSON dk hash toks = some (Except.error e)) ∧
    (∀ (ps : List (S × V)) (b' : Builder K V) (rest : List (JTok S V)),
      foldSets dk hash NewBuilder ps = some b' →
      UnmarshalJSON dk hash
          (JTok.lbrace :: (pairsToks ps ++ JTok.badTok :: rest)) =
        some (Except.error JErr.badKeyToken)) ∧
    (∀ (ps : List (S × V)) (b' : Builder K V) (s : S) (k0 : K)
        (rest : List (JTok S V)),
      foldSets dk hash NewBuilder ps = some b' → dk s = some k0 →
      UnmarshalJSON dk hash (JTok.lbrace ::
          (pairsToks ps ++ JTok.keyTok s :: JTok.valTok none :: rest)) =
        some (Except.error JErr.valueDecode)) ∧
    (∀ (ps : List (S × V)) (b' : Builder K V),
      foldSets dk hash NewBuilder ps = some b' →
      UnmarshalJSON dk hash (JTok.lbrace :: pairsToks ps) =
        some (Except.error JErr.eofErr)) ∧
    (∀ (ps : List (S × V)) (b' : Builder K V) (rest : List (JTok S V)),
      foldSets dk hash NewBuilder ps = some b' →
      UnmarshalJSON dk hash
          (JTok.lbrace :: (pairsToks ps ++ JTok.rbrace :: rest)) =
        some (Except.ok b'.Build) ∧
      (ps.Pairwise (fun p q => ∀ kp kq, dk p.1 = some kp →
          dk q.1 = some kq → kp ≠ kq) →
        ∀ p ∈ ps, ∀ k, dk p.1 = some k →
          (b'.Build).Get hash k = some p.2)) := by
  refine ⟨?_, ?_, ?_, ?_, ?_⟩
  · intro toks hne
    cases toks with
    | nil => exact ⟨.eofErr, rfl⟩
    | cons t rest =>
      cases t with
      | lbrace => exact absurd rfl (hne rest)
      | rbrace => exact ⟨.notLbrace, rfl⟩
      | keyTok s => exact ⟨.notLbrace, rfl⟩
      | badTok => exact ⟨.notLbrace, rfl⟩
      | valTok r => exact ⟨.notLbrace, rfl⟩
  · intro ps b' rest hf
    show unmarshalLoop dk hash NewBuilder
        (pairsToks ps ++ JTok.badTok :: rest) = _
    rw [unmarshalLoop_app dk hash ps NewBuilder b' _ hf]
    rfl
  · intro ps b' s k0 rest hf hdk
    show unmarshalLoop dk hash NewBuilder
        (pairsToks ps ++ JTok.keyTok s :: JTok.valTok none :: rest) = _
    rw [unmarshalLoop_app dk hash ps NewBuilder b' _ hf]
    simp [unmarshalLoop, hdk]
  · intro ps b' hf
    have h1 := unmarshalLoop_app dk hash ps NewBuilder b'
      ([] : List (JTok S V)) hf
    rw [List.append_nil] at h1
    show unmarshalLoop dk hash NewBuilder (pairsToks ps) = _
    rw [h1]
    rfl
  · intro ps b' rest hf
    constructor
    · show unmarshalLoop dk hash NewBuilder
          (pairsToks ps ++ JTok.rbrace :: rest) = _
      rw [unmarshalLoop_app dk hash ps NewBuilder b' _ hf]
      rfl
    · intro hpw p hp k hdkp
      exact get_foldSets dk hash ps NewBuilder b' hf hpw p hp k hdkp

end Unmarshal

/-- Witness for C10 at a concrete input: decoding the token stream of the
object with the single entry `1 ↦ 10`. -/
theorem unmarshal_rejects_malformed_witness :
    UnmarshalJSON (fun s : Nat => some s) testHash
        [JTok.lbrace, JTok.keyTok 1, JTok.valTok (some 10), JTok.rbrace] =
      some (Except.ok (⟨node.mk (some (1, 10)) none, 1⟩ : Map Nat Nat)) :=
  ((unmarshal_rejects_malformed (fun s : Nat => some s)
      testHash).2.2.2.2 [(1, 10)]
    (⟨node.mk (some (1, 10)) none, 1⟩ : Builder Nat Nat) [] (by decide)).1

/-- Witness for C9 at a concrete input: inserting key 3 into the placed
two-key trie `{1 ↦ 10, 2 ↦ 20}` under `testHash` succeeds within the
depth budget. -/
theorem insert_terminates_within_depth_witness :
    (node.insertF testHash insertFuel
      (node.mk none (some (children4.mk node.empty
        (node.mk (some (1, 10)) none) (node.mk (some (2, 20)) none)
        node.empty))) 3 30 (testHash 3) 0).isSome = true :=
  (insert_terminates_within_depth testHash
    (node.mk none (some (children4.mk node.empty
      (node.mk (some (1, 10)) none) (node.mk (some (2, 20)) none)
      node.empty))) 3 30 (by decide) (by decide) (by decide) (by decide)
    (by decide)).1

end Immut
